import Mathlib

/-!
Verification of the multiplicative Nim analysis engine
(`multiplicative_nim.py`).

The development is a shallow embedding of the Python module.  Pure Python
functions become Lean functions on `Nat` and `List Nat`; a position is a
`List Nat`.  The module computes products with `np.prod`, which on the
reachable data is a NumPy int64 reduction: each multiplication wraps
silently modulo 2 to the 64, with results represented in the signed window
from minus 2 to the 63 up to 2 to the 63 minus 1.  That behaviour is
modelled exactly by `wrap64` and `prodInt64` below.  NumPy and Python both
give a nonnegative remainder for a positive modulus, which agrees with
`Int.emod`.  Input validation (`ValueError` raising) is modelled by
`Except`-valued wrappers suffixed `_checked`.
-/

/-- Signed 64-bit wraparound: the unique representative of `x` modulo
2 to the 64 lying in the signed int64 window. -/
def wrap64 (x : Int) : Int := (x + 2 ^ 63) % 2 ^ 64 - 2 ^ 63

/-- One multiplication step of the int64 reduction. -/
def prodStep (acc : Int) (x : Nat) : Int := wrap64 (acc * (x : Int))

/-- `np.prod` on a tuple of machine-word integers: an int64 reduction with
silent wraparound at every step (source line 92 and the other `np.prod`
call sites).  NumPy infers the int64 dtype exactly when every element fits
in int64; every concrete input used in this development keeps its elements
below 2 to the 63, where this model coincides with `np.prod`. -/
def prodInt64 (l : List Nat) : Int :=
  l.foldl prodStep 1

/-- Source line 57: `[i for i in range(1, max_value + 1) if i % prime != 0]`. -/
def valid_numbers (max_value prime : Nat) : List Nat :=
  (List.range' 1 max_value).filter (fun i => !decide (i % prime = 0))

/-- Source lines 34-73 (`generate_positions`), the recursion after the
positivity guard; the guard itself lives in `generate_positions_checked`.
The `0` case is unreachable from the guarded entry point. -/
def generate_positions : Nat → Nat → Nat → List (List Nat)
  | 0, _, _ => []
  | 1, max_value, prime => (valid_numbers max_value prime).map (fun i => [i])
  | count + 2, max_value, prime =>
      (valid_numbers max_value prime).flatMap (fun i =>
        ((generate_positions (count + 1) max_value prime).filter
            (fun t => decide (i ≤ t.headI))).map (fun t => i :: t))

/-- Source lines 75-92 (`filter_by_prime`), after the positivity guard:
keep a position when its int64 product is congruent to 1 modulo `prime`
and no element is a multiple of `prime`. -/
def filter_by_prime (positions : List (List Nat)) (prime : Nat) : List (List Nat) :=
  positions.filter (fun position =>
    decide (prodInt64 position % (prime : Int) = 1) &&
      !(position.any (fun x => decide (x % prime = 0))))

/-- Source lines 120-139: the reduction search of `find_non_convertible`.
For every index `i` the code tries reductions `1 .. min(position[i], prime) - 1`,
skips a candidate whose new value is a multiple of `prime` or exceeds
`max_value`, re-sorts, and tests the int64 product against 1 mod `prime`. -/
def codeCanConvert (position : List Nat) (prime max_value : Nat) : Bool :=
  (List.range position.length).any (fun i =>
    (List.range' 1 (min (position.getD i 0) prime - 1)).any (fun reduction =>
      !(decide ((position.getD i 0 - reduction) % prime = 0) ||
          decide (max_value < position.getD i 0 - reduction)) &&
        decide (prodInt64 (List.insertionSort (· ≤ ·)
            (position.set i (position.getD i 0 - reduction))) % (prime : Int) = 1)))

/-- Source lines 94-145 (`find_non_convertible`), after the positivity
guard: positions whose int64 product is already 1 mod `prime` are skipped;
a position is kept when no tried reduction converts it. -/
def find_non_convertible (positions : List (List Nat)) (prime max_value : Nat) :
    List (List Nat) :=
  positions.filter (fun position =>
    !decide (prodInt64 position % (prime : Int) = 1) &&
      !codeCanConvert position prime max_value)

/-- Source lines 181-182: `m = original_product % prime` and
`target_product = original_product - m + 1`. -/
def targetProduct (product : Int) (prime : Nat) : Int :=
  product - product % (prime : Int) + 1

/-- Source lines 147-194 (`find_reduced_non_convertible`), after the
positivity guard.  The function ignores its `all_positions` argument: it
regenerates the full position set and the losing set itself (lines
171-174) and keeps a non-convertible position when no losing position has
int64 product equal to the target product. -/
def find_reduced_non_convertible (non_convertible all_positions : List (List Nat))
    (prime max_value count : Nat) : List (List Nat) :=
  non_convertible.filter (fun position =>
    !((filter_by_prime (generate_positions count max_value prime) prime).any
        (fun losing_position =>
          decide (prodInt64 losing_position = targetProduct (prodInt64 position) prime))))

/-- Source lines 13-32 (`count_positions`).  After the positivity guard the
body evaluates `comb(n + m - 1, m - 1)`, but the module never imports or
defines `comb` (there is no `import math` and NumPy does not export it), so
every call that passes the guard raises `NameError`. -/
def count_positions (n m : Int) : Except String Nat :=
  if n ≤ 0 ∨ m ≤ 0 then
    Except.error "ValueError: n and m must be positive integers"
  else
    Except.error "NameError: name comb is not defined"

/-- Source lines 53-54: the `ValueError` guard of `generate_positions`. -/
def generate_positions_checked (count max_value prime : Int) :
    Except String (List (List Nat)) :=
  if count ≤ 0 ∨ max_value ≤ 0 ∨ prime ≤ 0 then
    Except.error "ValueError: count, max_value, and prime must be positive integers"
  else
    Except.ok (generate_positions count.toNat max_value.toNat prime.toNat)

/-- Source lines 89-90: the `ValueError` guard of `filter_by_prime`. -/
def filter_by_prime_checked (positions : List (List Nat)) (prime : Int) :
    Except String (List (List Nat)) :=
  if prime ≤ 0 then
    Except.error "ValueError: prime must be a positive integer"
  else
    Except.ok (filter_by_prime positions prime.toNat)

/-- Source lines 110-111: the `ValueError` guard of `find_non_convertible`. -/
def find_non_convertible_checked (positions : List (List Nat)) (prime max_value : Int) :
    Except String (List (List Nat)) :=
  if prime ≤ 0 ∨ max_value ≤ 0 then
    Except.error "ValueError: prime and max_value must be positive integers"
  else
    Except.ok (find_non_convertible positions prime.toNat max_value.toNat)

/-- Source lines 165-166: the `ValueError` guard of
`find_reduced_non_convertible`. -/
def find_reduced_non_convertible_checked (non_convertible all_positions : List (List Nat))
    (prime max_value count : Int) : Except String (List (List Nat)) :=
  if prime ≤ 0 ∨ max_value ≤ 0 ∨ count ≤ 0 then
    Except.error "ValueError: prime, max_value, and count must be positive integers"
  else
    Except.ok (find_reduced_non_convertible non_convertible all_positions
      prime.toNat max_value.toNat count.toNat)

/-- Modelled from the wording of claim C3 (the specification side of the
refinement): the reduction search with the full reduction range
`1 .. element - 1` and exact integer products, everything else as in
`codeCanConvert`. -/
def specCanConvert (position : List Nat) (prime max_value : Nat) : Bool :=
  (List.range position.length).any (fun i =>
    (List.range' 1 (position.getD i 0 - 1)).any (fun reduction =>
      !(decide ((position.getD i 0 - reduction) % prime = 0) ||
          decide (max_value < position.getD i 0 - reduction)) &&
        decide ((List.insertionSort (· ≤ ·)
            (position.set i (position.getD i 0 - reduction))).prod % prime = 1)))

/-- Claim C5: `count_positions(1, 1)` should return `C(1, 0) = 1` without
raising, but the code raises `NameError` because `comb` is never imported.
This theorem records the failing evaluation next to the intended value. -/
theorem claims_C5 :
    count_positions 1 1 = Except.error "NameError: name comb is not defined" ∧
    Nat.choose (1 + 1 - 1) (1 - 1) = 1 := by
  constructor
  · rfl
  · rfl

/-- Claim C6: the concrete scenario `count = 2`, `max_value = 4`,
`prime = 3`: the generated positions are exactly the six listed tuples and
`filter_by_prime` keeps exactly the four losing ones. -/
theorem claims_C6 :
    generate_positions 2 4 3 = [[1, 1], [1, 2], [1, 4], [2, 2], [2, 4], [4, 4]] ∧
    filter_by_prime [[1, 1], [1, 2], [1, 4], [2, 2], [2, 4], [4, 4]] 3 =
      [[1, 1], [1, 4], [2, 2], [4, 4]] := by
  constructor
  · rfl
  · rfl

/-- Claim C9: `find_reduced_non_convertible` does not depend on its
`all_positions` argument; the body recomputes the position set and the
losing set internally and never reads the argument. -/
theorem claims_C9 (non_convertible a1 a2 : List (List Nat)) (prime max_value count : Nat) :
    find_reduced_non_convertible non_convertible a1 prime max_value count =
      find_reduced_non_convertible non_convertible a2 prime max_value count := rfl

/-- Two integers congruent modulo 2 to the 64 wrap to the same int64. -/
theorem wrap64_congr {a b : Int} (h : a % 2 ^ 64 = b % 2 ^ 64) : wrap64 a = wrap64 b := by
  unfold wrap64
  omega

/-- Values inside the signed int64 window are fixed by `wrap64`. -/
theorem wrap64_id {x : Int} (h0 : -(2 ^ 63) ≤ x) (h1 : x < 2 ^ 63) : wrap64 x = x := by
  unfold wrap64
  omega

/-- Wrapping the left factor first does not change a wrapped product. -/
theorem wrap64_mul_left (a b : Int) : wrap64 (wrap64 a * b) = wrap64 (a * b) := by
  apply wrap64_congr
  have hd : (2 ^ 64 : Int) ∣ (wrap64 a - a) := by
    unfold wrap64
    omega
  obtain ⟨k, hk⟩ := hd
  have hw : wrap64 a = a + 2 ^ 64 * k := by omega
  have hmul : wrap64 a * b = a * b + 2 ^ 64 * (k * b) := by
    rw [hw]
    ring
  rw [hmul, Int.add_mul_emod_self_left]

/-- Accumulator form of the int64 product. -/
theorem prodInt64_go (l : List Nat) :
    ∀ a : Int, l.foldl prodStep (wrap64 a) = wrap64 (a * (l.prod : Int)) := by
  induction l with
  | nil =>
      intro a
      simp [List.foldl]
  | cons x xs ih =>
      intro a
      show xs.foldl prodStep (prodStep (wrap64 a) x) = _
      have hstep : prodStep (wrap64 a) x = wrap64 (a * (x : Int)) := by
        unfold prodStep
        exact wrap64_mul_left a (x : Int)
      rw [hstep, ih (a * (x : Int))]
      congr 1
      push_cast [List.prod_cons]
      ring

/-- The int64 reduction equals the exact product wrapped once. -/
theorem prodInt64_eq_wrap (l : List Nat) : prodInt64 l = wrap64 (l.prod : Int) := by
  have h1 : (1 : Int) = wrap64 1 := by
    unfold wrap64
    omega
  unfold prodInt64
  calc l.foldl prodStep 1
      = l.foldl prodStep (wrap64 1) := by rw [← h1]
    _ = wrap64 (1 * (l.prod : Int)) := prodInt64_go l 1
    _ = wrap64 (l.prod : Int) := by rw [one_mul]

/-- Below the wrap threshold the int64 product is the exact product. -/
theorem prodInt64_eq_of_lt (l : List Nat) (h : l.prod < 2 ^ 63) :
    prodInt64 l = (l.prod : Int) := by
  rw [prodInt64_eq_wrap]
  exact wrap64_id (by omega) (by omega)

/-- Residue test transfer between `Int` and `Nat`. -/
theorem int_mod_one_iff (n p : Nat) : ((n : Int) % (p : Int) = 1) ↔ n % p = 1 := by
  constructor <;> intro h <;> exact_mod_cast h

/-- Claim C10, counterexample: the position `(2^32, 2^32)` is accepted at
the public interface, its exact product `2^64` is congruent to 1 mod 3,
but `np.prod` wraps it to 0, so `filter_by_prime` drops a position that
exact arithmetic classifies as losing. -/
theorem claims_C10_cex :
    prodInt64 [4294967296, 4294967296] = 0 ∧
    (4294967296 * 4294967296 : Nat) % 3 = 1 ∧
    filter_by_prime [[4294967296, 4294967296]] 3 = [] := by
  refine ⟨by decide, by decide, by decide⟩

/-- Claim C10, amended: the `np.prod` value equals the exact mathematical
product, and the residue classification agrees with exact arithmetic, for
every position whose exact product is below 2 to the 63; larger products
are reachable and wrap (see the counterexample). -/
theorem claims_C10_amended (l : List Nat) (prime : Nat) (hp : 0 < prime)
    (h : l.prod < 2 ^ 63) :
    prodInt64 l = (l.prod : Int) ∧
    ((prodInt64 l % (prime : Int) = 1) ↔ l.prod % prime = 1) := by
  have h1 := prodInt64_eq_of_lt l h
  refine ⟨h1, ?_⟩
  rw [h1]
  exact int_mod_one_iff _ _

/-- Witness for `claims_C10_amended` at the position `(2, 3)` with prime 5. -/
theorem claims_C10_witness :
    prodInt64 [2, 3] = (List.prod [2, 3] : Int) ∧
    ((prodInt64 [2, 3] % (5 : Int) = 1) ↔ List.prod [2, 3] % 5 = 1) :=
  claims_C10_amended [2, 3] 5 (by decide) (by decide)

/-- Claim C1, counterexample: `filter_by_prime` keeps the position
`(2^31, 2^32)` although its exact product `2^63` is congruent to 2, not 1,
modulo 3 (the int64 product wraps to minus 2 to the 63, which is congruent
to 1 modulo 3), so the function does not return exactly the positions whose
element product is congruent to 1 modulo the prime. -/
theorem claims_C1_cex :
    filter_by_prime [[2147483648, 4294967296]] 3 = [[2147483648, 4294967296]] ∧
    ¬ List.prod [2147483648, 4294967296] % 3 = 1 := by
  refine ⟨by decide, by decide⟩

/-- Claim C1, amended: for every list of positions whose exact products are
below 2 to the 63 (so the int64 product cannot wrap) and every positive
prime, `filter_by_prime` returns exactly the order-preserving subsequence
of its input consisting of the positions whose element product is congruent
to 1 modulo the prime and which contain no element divisible by the prime.
The embedding is a pure function, so the input is not modified. -/
theorem claims_C1_amended (positions : List (List Nat)) (prime : Nat) (hp : 0 < prime)
    (hbound : ∀ P ∈ positions, P.prod < 2 ^ 63) :
    filter_by_prime positions prime =
      positions.filter (fun P =>
        decide (P.prod % prime = 1) && !(P.any (fun x => decide (x % prime = 0)))) ∧
    (filter_by_prime positions prime).Sublist positions := by
  constructor
  · unfold filter_by_prime
    apply List.filter_congr
    intro P hP
    have h1 : decide (prodInt64 P % (prime : Int) = 1) = decide (P.prod % prime = 1) := by
      apply decide_eq_decide.mpr
      rw [prodInt64_eq_of_lt P (hbound P hP)]
      exact int_mod_one_iff _ _
    rw [h1]
  · exact List.filter_sublist _

/-- Witness for `claims_C1_amended` on the list `[[2], [4]]` with prime 3. -/
theorem claims_C1_witness :
    filter_by_prime [[2], [4]] 3 =
      List.filter (fun P =>
        decide (P.prod % 3 = 1) && !(P.any (fun x => decide (x % 3 = 0)))) [[2], [4]] ∧
    (filter_by_prime [[2], [4]] 3).Sublist [[2], [4]] :=
  claims_C1_amended [[2], [4]] 3 (by decide) (by decide)

/-- Membership in the valid alphabet of a generation run. -/
theorem mem_valid_numbers (x max_value prime : Nat) :
    x ∈ valid_numbers max_value prime ↔
      1 ≤ x ∧ x ≤ max_value ∧ ¬ x % prime = 0 := by
  unfold valid_numbers
  simp only [List.mem_filter, List.mem_range'_1, Bool.not_eq_true',
    decide_eq_false_iff_not]
  constructor
  · rintro ⟨⟨h1, h2⟩, h3⟩
    exact ⟨h1, by omega, h3⟩
  · rintro ⟨h1, h2, h3⟩
    exact ⟨⟨h1, by omega⟩, h3⟩

/-- In a sorted list every element is at least the head. -/
theorem headI_le_of_sorted (u : List Nat) (hs : List.Sorted (· ≤ ·) u) :
    ∀ b ∈ u, u.headI ≤ b := by
  cases u with
  | nil => intro b hb; cases hb
  | cons y u2 =>
      intro b hb
      rcases List.mem_cons.mp hb with h | h
      · subst h; exact le_refl _
      · exact (List.sorted_cons.mp hs).1 b h

/-- Membership characterisation of `generate_positions`: for a positive
count the generated lists are exactly the sorted lists of the right length
over the valid alphabet. -/
theorem mem_generate_positions :
    ∀ (count : Nat), 1 ≤ count → ∀ (max_value prime : Nat) (t : List Nat),
      (t ∈ generate_positions count max_value prime ↔
        t.length = count ∧ List.Sorted (· ≤ ·) t ∧
          ∀ x ∈ t, x ∈ valid_numbers max_value prime) := by
  intro count
  induction count with
  | zero => intro h; omega
  | succ c ih =>
      intro _ max_value prime t
      match c with
      | 0 =>
          show t ∈ generate_positions 1 max_value prime ↔ _
          unfold generate_positions
          simp only [List.mem_map]
          constructor
          · rintro ⟨i, hi, rfl⟩
            refine ⟨rfl, List.sorted_singleton i, ?_⟩
            intro x hx
            rcases List.mem_singleton.mp hx with rfl
            exact hi
          · rintro ⟨hlen, _, hall⟩
            obtain ⟨a, rfl⟩ := List.length_eq_one.mp hlen
            exact ⟨a, hall a (List.mem_singleton_self a), rfl⟩
      | k + 1 =>
          show t ∈ generate_positions (k + 2) max_value prime ↔ _
          unfold generate_positions
          simp only [List.mem_flatMap, List.mem_map, List.mem_filter,
            decide_eq_true_eq]
          constructor
          · rintro ⟨i, hi, u, ⟨⟨hu, hhead⟩, rfl⟩⟩
            obtain ⟨hulen, husort, huall⟩ :=
              (ih (by omega) max_value prime u).mp hu
            have hipos : ∀ b ∈ u, i ≤ b := by
              intro b hb
              exact le_trans hhead (headI_le_of_sorted u husort b hb)
            refine ⟨by simp [hulen], ?_, ?_⟩
            · exact List.sorted_cons.mpr ⟨hipos, husort⟩
            · intro x hx
              rcases List.mem_cons.mp hx with rfl | hx
              · exact hi
              · exact huall x hx
          · rintro ⟨hlen, hsort, hall⟩
            match t with
            | [] => simp at hlen
            | x :: u =>
                have hulen : u.length = k + 1 := by
                  simpa using hlen
                have hxall := List.sorted_cons.mp hsort
                have hu : u ∈ generate_positions (k + 1) max_value prime := by
                  refine (ih (by omega) max_value prime u).mpr
                    ⟨hulen, hxall.2, ?_⟩
                  intro y hy
                  exact hall y (List.mem_cons_of_mem x hy)
                have hune : u ≠ [] := by
                  intro h
                  rw [h] at hulen
                  simp at hulen
                have hhead : x ≤ u.headI := by
                  apply hxall.1
                  match u, hune with
                  | y :: u2, _ => exact List.mem_cons_self y u2
                exact ⟨x, hall x (List.mem_cons_self x u), u, ⟨⟨hu, hhead⟩, rfl⟩⟩

/-- The generated position list never contains duplicates. -/
theorem nodup_generate_positions :
    ∀ (count max_value prime : Nat),
      (generate_positions count max_value prime).Nodup := by
  intro count
  induction count with
  | zero =>
      intro max_value prime
      exact List.nodup_nil
  | succ c ih =>
      intro max_value prime
      have hvalid : (valid_numbers max_value prime).Nodup :=
        List.Nodup.filter _ (List.nodup_range' 1 max_value)
      match c with
      | 0 =>
          show (generate_positions 1 max_value prime).Nodup
          unfold generate_positions
          exact List.Nodup.map (fun a b h => by simpa using h) hvalid
      | k + 1 =>
          show (generate_positions (k + 2) max_value prime).Nodup
          unfold generate_positions
          apply List.nodup_flatMap.mpr
          constructor
          · intro i _
            exact List.Nodup.map (fun a b h => by simpa using h)
              (List.Nodup.filter _ (ih max_value prime))
          · apply List.Pairwise.imp ?_ hvalid
            intro a b hab
            intro t hta htb
            simp only [Function.onFun, List.mem_map] at hta htb
            obtain ⟨u, _, rfl⟩ := hta
            obtain ⟨v, _, hv⟩ := htb
            injection hv with h1 h2
            exact hab h1.symm

/-- Claim C2: for positive `count`, `max_value`, `prime`, every tuple
produced by `generate_positions` has length `count`, elements in
`[1, max_value]` in non-decreasing order, none a multiple of `prime`, the
result has no duplicates, and every non-decreasing `count`-tuple over
`{1 .. max_value}` avoiding multiples of `prime` appears in the result. -/
theorem claims_C2 (count max_value prime : Nat) (hc : 1 ≤ count)
    (hm : 1 ≤ max_value) (hp : 1 ≤ prime) :
    (∀ t ∈ generate_positions count max_value prime,
        t.length = count ∧ List.Sorted (· ≤ ·) t ∧
          ∀ x ∈ t, 1 ≤ x ∧ x ≤ max_value ∧ ¬ x % prime = 0) ∧
    (generate_positions count max_value prime).Nodup ∧
    (∀ t : List Nat, t.length = count → List.Sorted (· ≤ ·) t →
        (∀ x ∈ t, 1 ≤ x ∧ x ≤ max_value ∧ ¬ x % prime = 0) →
        t ∈ generate_positions count max_value prime) := by
  refine ⟨?_, nodup_generate_positions count max_value prime, ?_⟩
  · intro t ht
    obtain ⟨hlen, hsort, hall⟩ :=
      (mem_generate_positions count hc max_value prime t).mp ht
    refine ⟨hlen, hsort, ?_⟩
    intro x hx
    exact (mem_valid_numbers x max_value prime).mp (hall x hx)
  · intro t hlen hsort hall
    refine (mem_generate_positions count hc max_value prime t).mpr
      ⟨hlen, hsort, ?_⟩
    intro x hx
    exact (mem_valid_numbers x max_value prime).mpr (hall x hx)

/-- Witness for `claims_C2`: the completeness part at `count = 2`,
`max_value = 4`, `prime = 3` places the tuple `(2, 4)` in the output. -/
theorem claims_C2_witness : [2, 4] ∈ generate_positions 2 4 3 :=
  (claims_C2 2 4 3 (by decide) (by decide) (by decide)).2.2 [2, 4]
    (by decide) (by decide) (by decide)

/-- Claim C7: the classification chain.  Every position returned by
`find_reduced_non_convertible` belongs to the `non_convertible` argument;
every position returned by `find_non_convertible` belongs to its input,
fails the residue test of the code, and is never a position that
`filter_by_prime` would return on the same input. -/
theorem claims_C7 :
    (∀ (nc allp : List (List Nat)) (prime max_value count : Nat) (P : List Nat),
        P ∈ find_reduced_non_convertible nc allp prime max_value count → P ∈ nc) ∧
    (∀ (positions : List (List Nat)) (prime max_value : Nat) (P : List Nat),
        P ∈ find_non_convertible positions prime max_value →
          P ∈ positions ∧ ¬ prodInt64 P % (prime : Int) = 1 ∧
            P ∉ filter_by_prime positions prime) := by
  constructor
  · intro nc allp prime max_value count P hP
    exact List.mem_of_mem_filter hP
  · intro positions prime max_value P hP
    obtain ⟨hmem, hcond⟩ := List.mem_filter.mp hP
    obtain ⟨h1, h2⟩ := Bool.and_eq_true _ _ ▸ hcond
    have hres : ¬ prodInt64 P % (prime : Int) = 1 := by
      simpa using h1
    refine ⟨hmem, hres, ?_⟩
    intro habs
    obtain ⟨_, hcond2⟩ := List.mem_filter.mp habs
    obtain ⟨h3, _⟩ := Bool.and_eq_true _ _ ▸ hcond2
    exact hres (by simpa using h3)

/-- Witness for `claims_C7`: the first part at a run where the reduced
non-convertible list is non-empty, the second at a run where the
non-convertible list is non-empty. -/
theorem claims_C7_witness :
    ([2] ∈ ([[2]] : List (List Nat))) ∧
    ([2, 2] ∈ ([[2, 2]] : List (List Nat)) ∧ ¬ prodInt64 [2, 2] % (5 : Int) = 1 ∧
      [2, 2] ∉ filter_by_prime [[2, 2]] 5) :=
  ⟨claims_C7.1 [[2]] [] 2 1 1 [2] (by decide),
   claims_C7.2 [[2, 2]] 5 3 [2, 2] (by decide)⟩

/-- Claim C8: each engine operation raises `ValueError` exactly when one of
its integer parameters is non-positive, the guard fires before any
enumeration (the error is produced without evaluating the body), and on
positive parameters the operation returns normally. -/
theorem claims_C8 :
    (∀ count max_value prime : Int,
        ((∃ e, generate_positions_checked count max_value prime = Except.error e) ↔
          (count ≤ 0 ∨ max_value ≤ 0 ∨ prime ≤ 0)) ∧
        (0 < count → 0 < max_value → 0 < prime →
          generate_positions_checked count max_value prime =
            Except.ok (generate_positions count.toNat max_value.toNat prime.toNat))) ∧
    (∀ (positions : List (List Nat)) (prime : Int),
        ((∃ e, filter_by_prime_checked positions prime = Except.error e) ↔ prime ≤ 0) ∧
        (0 < prime →
          filter_by_prime_checked positions prime =
            Except.ok (filter_by_prime positions prime.toNat))) ∧
    (∀ (positions : List (List Nat)) (prime max_value : Int),
        ((∃ e, find_non_convertible_checked positions prime max_value = Except.error e) ↔
          (prime ≤ 0 ∨ max_value ≤ 0)) ∧
        (0 < prime → 0 < max_value →
          find_non_convertible_checked positions prime max_value =
            Except.ok (find_non_convertible positions prime.toNat max_value.toNat))) ∧
    (∀ (nc allp : List (List Nat)) (prime max_value count : Int),
        ((∃ e, find_reduced_non_convertible_checked nc allp prime max_value count =
            Except.error e) ↔ (prime ≤ 0 ∨ max_value ≤ 0 ∨ count ≤ 0)) ∧
        (0 < prime → 0 < max_value → 0 < count →
          find_reduced_non_convertible_checked nc allp prime max_value count =
            Except.ok (find_reduced_non_convertible nc allp
              prime.toNat max_value.toNat count.toNat))) := by
  refine ⟨?_, ?_, ?_, ?_⟩
  · intro count max_value prime
    constructor
    · unfold generate_positions_checked
      by_cases h : count ≤ 0 ∨ max_value ≤ 0 ∨ prime ≤ 0
      · simp [h]
      · simp [h]
    · intro h1 h2 h3
      unfold generate_positions_checked
      rw [if_neg (by omega)]
  · intro positions prime
    constructor
    · unfold filter_by_prime_checked
      by_cases h : prime ≤ 0
      · simp [h]
      · simp [h]
    · intro h1
      unfold filter_by_prime_checked
      rw [if_neg (by omega)]
  · intro positions prime max_value
    constructor
    · unfold find_non_convertible_checked
      by_cases h : prime ≤ 0 ∨ max_value ≤ 0
      · simp [h]
      · simp [h]
    · intro h1 h2
      unfold find_non_convertible_checked
      rw [if_neg (by omega)]
  · intro nc allp prime max_value count
    constructor
    · unfold find_reduced_non_convertible_checked
      by_cases h : prime ≤ 0 ∨ max_value ≤ 0 ∨ count ≤ 0
      · simp [h]
      · simp [h]
    · intro h1 h2 h3
      unfold find_reduced_non_convertible_checked
      rw [if_neg (by omega)]

/-- Witness for `claims_C8`: the non-failing branches at concrete positive
parameters. -/
theorem claims_C8_witness :
    generate_positions_checked 2 4 3 =
      Except.ok (generate_positions (2 : Int).toNat (4 : Int).toNat (3 : Int).toNat) ∧
    filter_by_prime_checked [[1, 1]] 3 =
      Except.ok (filter_by_prime [[1, 1]] (3 : Int).toNat) ∧
    find_non_convertible_checked [[2, 2]] 5 3 =
      Except.ok (find_non_convertible [[2, 2]] (5 : Int).toNat (3 : Int).toNat) ∧
    find_reduced_non_convertible_checked [[2]] [] 2 1 1 =
      Except.ok (find_reduced_non_convertible [[2]] []
        (2 : Int).toNat (1 : Int).toNat (1 : Int).toNat) :=
  ⟨(claims_C8.1 2 4 3).2 (by decide) (by decide) (by decide),
   (claims_C8.2.1 [[1, 1]] 3).2 (by decide),
   (claims_C8.2.2.1 [[2, 2]] 5 3).2 (by decide) (by decide),
   (claims_C8.2.2.2 [[2]] [] 2 1 1).2 (by decide) (by decide) (by decide)⟩

/-- Writing back the element already at an index is the identity. -/
theorem set_getD_self (l : List Nat) : ∀ i : Nat, l.set i (l.getD i 0) = l := by
  induction l with
  | nil => intro i; rfl
  | cons x xs ih =>
      intro i
      cases i with
      | zero => rfl
      | succ n =>
          show x :: xs.set n ((x :: xs).getD (n + 1) 0) = x :: xs
          rw [List.getD_cons_succ, ih n]

/-- Replacing one element by a congruent one preserves the product residue. -/
theorem prod_set_mod (l : List Nat) :
    ∀ (i a b p : Nat), a % p = b % p →
      (l.set i a).prod % p = (l.set i b).prod % p := by
  induction l with
  | nil => intro i a b p _; rfl
  | cons x xs ih =>
      intro i a b p h
      cases i with
      | zero =>
          simp only [List.set_cons_zero, List.prod_cons]
          rw [Nat.mul_mod, h, ← Nat.mul_mod]
      | succ n =>
          simp only [List.set_cons_succ, List.prod_cons]
          rw [Nat.mul_mod, ih n a b p h, ← Nat.mul_mod]

/-- Replacing one element by a smaller one cannot increase the product. -/
theorem prod_set_le (l : List Nat) :
    ∀ (i v : Nat), v ≤ l.getD i 0 → (l.set i v).prod ≤ l.prod := by
  induction l with
  | nil => intro i v _; exact le_refl _
  | cons x xs ih =>
      intro i v h
      cases i with
      | zero =>
          simp only [List.set_cons_zero, List.prod_cons]
          exact mul_le_mul_right' (by simpa using h) _
      | succ n =>
          simp only [List.set_cons_succ, List.prod_cons]
          exact mul_le_mul_left' (ih n v (by simpa using h)) _

/-- Sorting does not change the exact product. -/
theorem insertionSort_prod (l : List Nat) :
    (List.insertionSort (· ≤ ·) l).prod = l.prod :=
  (List.perm_insertionSort (· ≤ ·) l).prod_eq

/-- The int64 product of a sorted candidate is the wrapped exact product of
the unsorted candidate. -/
theorem prodInt64_insertionSort (X : List Nat) :
    prodInt64 (List.insertionSort (· ≤ ·) X) = wrap64 (X.prod : Int) := by
  rw [prodInt64_eq_wrap, insertionSort_prod]

/-- Below the wrap threshold the residue test of the code on a sorted
candidate agrees with the exact residue test. -/
theorem cond_transfer (X : List Nat) (p : Nat) (h : X.prod < 2 ^ 63) :
    (prodInt64 (List.insertionSort (· ≤ ·) X) % (p : Int) = 1) ↔
      X.prod % p = 1 := by
  rw [prodInt64_insertionSort, wrap64_id (by omega) (by omega)]
  exact int_mod_one_iff _ _

/-- The window argument: when a reduction of any size converts a non-losing
position (with exact arithmetic), some reduction in the code window
`1 .. min(element, prime) - 1` also converts it.  The residues of the
window values cover every residue class except those of 0 and of the
unreduced element, and those two classes cannot convert. -/
theorem exists_small_reduction (P : List Nat) (p mv : Nat) (hp : 0 < p)
    (helem : ∀ x ∈ P, 1 ≤ x ∧ x ≤ mv)
    (hP : ¬ P.prod % p = 1) (i : Nat) (hi : i < P.length) (r : Nat)
    (hr1 : 1 ≤ r) (hr2 : r ≤ P.getD i 0 - 1)
    (hv0 : ¬ (P.getD i 0 - r) % p = 0) (hvm : P.getD i 0 - r ≤ mv)
    (hprod : (P.set i (P.getD i 0 - r)).prod % p = 1) :
    ∃ rr, (1 ≤ rr ∧ rr ≤ min (P.getD i 0) p - 1) ∧
      ¬ (P.getD i 0 - rr) % p = 0 ∧ P.getD i 0 - rr ≤ mv ∧
      (P.set i (P.getD i 0 - rr)).prod % p = 1 := by
  have hePmem : P.getD i 0 ∈ P := by
    rw [List.getD_eq_getElem P 0 hi]
    exact List.getElem_mem hi
  have he1 : 1 ≤ P.getD i 0 := (helem _ hePmem).1
  have heM : P.getD i 0 ≤ mv := (helem _ hePmem).2
  by_cases hsmall : r ≤ min (P.getD i 0) p - 1
  · exact ⟨r, ⟨hr1, hsmall⟩, hv0, hvm, hprod⟩
  · push_neg at hsmall
    have hep : p < P.getD i 0 := by
      by_contra hcon
      push_neg at hcon
      rw [min_eq_left hcon] at hsmall
      omega
    have hminp : min (P.getD i 0) p = p := min_eq_right (le_of_lt hep)
    rw [hminp] at hsmall
    have hre : r ≤ P.getD i 0 := by omega
    have hr0 : ¬ r % p = 0 := by
      intro h0
      obtain ⟨k, hk⟩ := Nat.dvd_of_mod_eq_zero h0
      have hkey : P.getD i 0 - r + p * k = P.getD i 0 := by omega
      have hc : (P.getD i 0 - r) % p = P.getD i 0 % p := by
        calc (P.getD i 0 - r) % p
            = (P.getD i 0 - r + p * k) % p := (Nat.add_mul_mod_self_left _ _ _).symm
          _ = P.getD i 0 % p := by rw [hkey]
      have h2 : (P.set i (P.getD i 0 - r)).prod % p =
          (P.set i (P.getD i 0)).prod % p := prod_set_mod P i _ _ p hc
      rw [set_getD_self] at h2
      exact hP (h2.symm.trans hprod)
    have hrp1 : 1 ≤ r % p := Nat.pos_of_ne_zero hr0
    have hrplt : r % p < p := Nat.mod_lt r hp
    have hrple : r % p ≤ r := Nat.mod_le r p
    obtain ⟨k2, hk2⟩ := Nat.dvd_sub_mod (n := p) r
    have hkey2 : P.getD i 0 - r % p = (P.getD i 0 - r) + p * k2 := by omega
    have hmodeq : (P.getD i 0 - r % p) % p = (P.getD i 0 - r) % p := by
      rw [hkey2, Nat.add_mul_mod_self_left]
    refine ⟨r % p, ⟨hrp1, by rw [hminp]; omega⟩, ?_, ?_, ?_⟩
    · rw [hmodeq]
      exact hv0
    · omega
    · exact (prod_set_mod P i _ _ p hmodeq).trans hprod

/-- On a non-losing position with elements in range and wrap-free product,
the code search over the bounded reduction window finds a conversion
exactly when the full-range exact-arithmetic search does. -/
theorem canConvert_iff (P : List Nat) (p mv : Nat) (hp : 0 < p)
    (helem : ∀ x ∈ P, 1 ≤ x ∧ x ≤ mv) (hb : P.prod < 2 ^ 63)
    (hP : ¬ P.prod % p = 1) :
    codeCanConvert P p mv = specCanConvert P p mv := by
  have key : codeCanConvert P p mv = true ↔ specCanConvert P p mv = true := by
    unfold codeCanConvert specCanConvert
    simp only [List.any_eq_true, List.mem_range, List.mem_range'_1,
      Bool.and_eq_true, Bool.not_eq_true', Bool.or_eq_false_iff,
      decide_eq_false_iff_not, decide_eq_true_eq, insertionSort_prod]
    constructor
    · rintro ⟨i, hi, r, ⟨hr1, hr2⟩, ⟨h0, hmvr⟩, hprod⟩
      have hcand : (P.set i (P.getD i 0 - r)).prod < 2 ^ 63 :=
        lt_of_le_of_lt (prod_set_le P i _ (Nat.sub_le _ _)) hb
      have hmin : min (P.getD i 0) p ≤ P.getD i 0 := Nat.min_le_left _ _
      exact ⟨i, hi, r, ⟨hr1, by omega⟩, ⟨h0, hmvr⟩,
        (cond_transfer _ p hcand).mp hprod⟩
    · rintro ⟨i, hi, r, ⟨hr1, hr2⟩, ⟨h0, hmvr⟩, hprod⟩
      obtain ⟨rr, ⟨hrr1, hrr2⟩, h0r, hmvr2, hprodrr⟩ :=
        exists_small_reduction P p mv hp helem hP i hi r hr1 (by omega)
          h0 (Nat.not_lt.mp hmvr) hprod
      have hcand2 : (P.set i (P.getD i 0 - rr)).prod < 2 ^ 63 :=
        lt_of_le_of_lt (prod_set_le P i _ (Nat.sub_le _ _)) hb
      exact ⟨i, hi, rr, ⟨hrr1, by omega⟩, ⟨h0r, Nat.not_lt.mpr hmvr2⟩,
        (cond_transfer _ p hcand2).mpr hprodrr⟩
  cases h1 : codeCanConvert P p mv <;> cases h2 : specCanConvert P p mv <;>
    simp_all

/-- Claim C3, amended: provided every input position has elements in
`[1, max_value]` and a wrap-free exact product (below 2 to the 63),
`find_non_convertible` returns exactly the input positions whose product is
not 1 modulo the prime and for which no single-element downward change in
the full range makes the position losing; in particular, under these
hypotheses, bounding the reduction by `prime - 1` as the code does loses no
candidates.  Without the wrap-free bound the equivalence fails (see the
counterexample). -/
theorem claims_C3_amended (positions : List (List Nat)) (prime max_value : Nat)
    (hp : 0 < prime) (hm : 0 < max_value)
    (helem : ∀ P ∈ positions, ∀ x ∈ P, 1 ≤ x ∧ x ≤ max_value)
    (hbound : ∀ P ∈ positions, P.prod < 2 ^ 63) :
    find_non_convertible positions prime max_value =
      positions.filter (fun P =>
        !decide (P.prod % prime = 1) && !specCanConvert P prime max_value) := by
  unfold find_non_convertible
  apply List.filter_congr
  intro P hP
  have hb := hbound P hP
  have he := helem P hP
  have h1 : decide (prodInt64 P % (prime : Int) = 1) = decide (P.prod % prime = 1) := by
    apply decide_eq_decide.mpr
    rw [prodInt64_eq_of_lt P hb]
    exact int_mod_one_iff _ _
  by_cases hL : P.prod % prime = 1
  · rw [h1]
    simp [hL]
  · rw [h1, canConvert_iff P prime max_value hp he hb hL]

/-- Witness for `claims_C3_amended`: the run with `count = 2`,
`max_value = 3`, `prime = 5`, whose only non-convertible position is
`(2, 2)`. -/
theorem claims_C3_witness :
    find_non_convertible (generate_positions 2 3 5) 5 3 =
      List.filter (fun P => !decide (P.prod % 5 = 1) && !specCanConvert P 5 3)
        (generate_positions 2 3 5) :=
  claims_C3_amended (generate_positions 2 3 5) 5 3 (by decide) (by decide)
    (by decide) (by decide)

/-- Claim C3, counterexample: with prime 3 and `max_value = b` for
`b = 3 * 2 ^ 61 + 2` (all elements below the int64 maximum, so `np.prod`
really reduces in int64), the position `(4, b)` is returned by
`find_non_convertible`: the position itself has wrapped residue 0 and is
processed; the candidate from reducing 4 to 3 is filtered, the one from
reducing 4 to 2 has wrapped residue 0, the candidate `b - 2` is filtered
as a multiple of 3, and the candidate `b - 1` has wrapped residue 2.  Yet
reducing `b` all the way down to 1 gives the candidate `(1, 4)` with exact
product 4, congruent to 1 modulo 3 — so the position does not satisfy the
full-range predicate the claim states, and the claimed extensional
description of the output is false. -/
theorem claims_C3_cex :
    find_non_convertible [[4, 6917529027641081858]] 3 6917529027641081858 =
      [[4, 6917529027641081858]] ∧
    specCanConvert [4, 6917529027641081858] 3 6917529027641081858 = true := by
  constructor
  · decide
  · unfold specCanConvert
    rw [List.any_eq_true]
    refine ⟨1, by decide, ?_⟩
    rw [List.any_eq_true]
    refine ⟨6917529027641081857, ?_, ?_⟩
    · rw [List.mem_range'_1]
      simp only [List.getD_cons_succ, List.getD_cons_zero]
      decide
    · decide
